import Mathlib

/-!
Verification of the check-in ledger and aggregation engine of the
`astrbot_plugin_deer_check` plugin (`main.py`, `resources/deer_core.py`).

Dates are stored by the program as `YYYY-MM-DD` strings (produced by
`strftime`) and compared by string equality, and months as `YYYY-MM`
prefixes; we model them structurally as `(year, month, day)` and
`(year, month)` tuples, on which equality agrees with equality of the
formatted strings.  Database tables are modelled as association lists,
SQL aggregate queries as list folds, and the one in-memory flag
(`self._initialized`) as a boolean in an explicit process state.
-/

namespace DeerCheck

/-- Calendar date, modelling the `YYYY-MM-DD` strings stored in the
`checkin_date` column (`main.py`, `_init_db`). -/
structure Date where
  year : Nat
  month : Nat
  day : Nat
deriving DecidableEq, Repr

/-- Year-month period, modelling the `YYYY-MM` strings produced by
`strftime('%Y-%m', ...)`. -/
abbrev Period := Nat × Nat

/-- Formatting `strftime('%Y-%m', d)`: the month a stored date belongs to. -/
def periodOf (d : Date) : Period := (d.year, d.month)

/-- One row of the `checkin` table (`main.py`, `_init_db`):
`(user_id TEXT, checkin_date TEXT, deer_count INTEGER)` with primary key
`(user_id, checkin_date)`. -/
structure Record where
  user_id : String
  checkin_date : Date
  deer_count : Nat
deriving DecidableEq, Repr

/-- The `checkin` table. -/
abbrev Ledger := List Record

/-- Query `SELECT deer_count FROM checkin WHERE user_id = ? AND checkin_date = ?`
(at most one row thanks to the primary key). -/
def Ledger.get : Ledger → String → Date → Option Nat
  | [], _, _ => none
  | r :: rs, u, d =>
    if r.user_id = u ∧ r.checkin_date = d then some r.deer_count else Ledger.get rs u d

/-- The upsert used by both the check-in and the backfill handlers
(`main.py` lines 186-193 and 326-333):
`INSERT INTO checkin ... ON CONFLICT(user_id, checkin_date)
DO UPDATE SET deer_count = deer_count + excluded.deer_count`. -/
def Ledger.increment : Ledger → String → Date → Nat → Ledger
  | [], u, d, a => [⟨u, d, a⟩]
  | r :: rs, u, d, a =>
    if r.user_id = u ∧ r.checkin_date = d then
      { r with deer_count := r.deer_count + a } :: rs
    else
      r :: Ledger.increment rs u d a

/-- A sequence of increments applied to the same `(user, date)` key. -/
def applyIncrements (l : Ledger) (u : String) (d : Date) (amounts : List Nat) : Ledger :=
  amounts.foldl (fun acc a => Ledger.increment acc u d a) l

/-- The monthly sum excluding one date (`main.py` lines 163-166 / 303-306):
`SELECT SUM(deer_count) FROM checkin WHERE user_id = ? AND
strftime('%Y-%m', checkin_date) = ? AND checkin_date != ?`
(a `NULL` sum is read back as `0`). -/
def monthTotalExcl (l : Ledger) (u : String) (p : Period) (excl : Date) : Nat :=
  ((l.filter (fun r =>
      decide (r.user_id = u ∧ periodOf r.checkin_date = p ∧ r.checkin_date ≠ excl))).map
    (fun r => r.deer_count)).sum

/-- Outcome of a check-in attempt: the accepted path commits the upsert, the
two rejection paths answer with the limit that was hit and commit nothing. -/
inductive CheckinOutcome where
  | accepted : CheckinOutcome
  | rejectedDaily : Nat → CheckinOutcome
  | rejectedMonthly : Nat → CheckinOutcome
deriving DecidableEq, Repr

/-- The write path of `handle_deer_checkin` (`main.py` lines 142-193) after the
effective date has been resolved: the daily cap is checked first (when
`daily_max_checkins > 0`), then the monthly cap (when
`monthly_max_checkins > 0`, re-reading the same daily count), and only then
the upsert runs.  A cap of `0` means unlimited. -/
def handle_deer_checkin (daily_max monthly_max : Nat) (l : Ledger) (u : String) (d : Date)
    (amount : Nat) : CheckinOutcome × Ledger :=
  if 0 < daily_max ∧ daily_max < (Ledger.get l u d).getD 0 + amount then
    (CheckinOutcome.rejectedDaily daily_max, l)
  else if 0 < monthly_max ∧
      monthly_max < monthTotalExcl l u (periodOf d) d + (Ledger.get l u d).getD 0 + amount then
    (CheckinOutcome.rejectedMonthly monthly_max, l)
  else
    (CheckinOutcome.accepted, Ledger.increment l u d amount)

/-- The durable state: the `checkin` table together with the
`last_cleanup_month` row of the `metadata` table (`none` when the row is
absent). -/
structure DB where
  checkin : Ledger
  last_cleanup_month : Option Period
deriving DecidableEq, Repr

/-- Function `_monthly_cleanup` (`main.py` lines 85-105): when the stored
`last_cleanup_month` is absent or differs from the current `YYYY-MM`, delete
(if `auto_delete_last_month_data` is set) every row whose date lies outside
the current month — `DELETE FROM checkin WHERE strftime('%Y-%m', checkin_date) != ?`
— and write `last_cleanup_month = current` unconditionally. -/
def monthly_cleanup (autoDelete : Bool) (current : Period) (db : DB) : DB :=
  if db.last_cleanup_month = some current then db
  else
    { checkin :=
        if autoDelete then
          db.checkin.filter (fun r => decide (periodOf r.checkin_date = current))
        else db.checkin,
      last_cleanup_month := some current }

/-- The in-memory process state: the database plus the `self._initialized`
flag guarding the one-time initialization. -/
structure PluginState where
  db : DB
  initDone : Bool
deriving DecidableEq, Repr

/-- Function `_ensure_initialized` (`main.py` lines 54-60): run `_monthly_cleanup`
once per process lifetime, then set the flag (the `_init_db` table creation
is schema-only and not modelled). -/
def ensure_init (autoDelete : Bool) (current : Period) (s : PluginState) : PluginState :=
  if s.initDone then s
  else { db := monthly_cleanup autoDelete current s.db, initDone := true }

/-- Wall-clock time of day of the event (`datetime.now().time()`); the
sub-second fields compare against the zeroed day-start exactly as the
seconds field does, so they are folded into `second`. -/
structure Time where
  hour : Nat
  minute : Nat
  second : Nat
deriving DecidableEq, Repr

/-- Comparison `current_time.time() < day_start_time.time()` (`main.py` line 135),
where the day-start has `second=0` and `microsecond=0`: the `datetime.time`
order is lexicographic. -/
def Time.lt (t s : Time) : Prop :=
  t.hour < s.hour ∨ (t.hour = s.hour ∧
    (t.minute < s.minute ∨ (t.minute = s.minute ∧ t.second < s.second)))

instance (t s : Time) : Decidable (Time.lt t s) := by
  unfold Time.lt
  exact inferInstance

/-- Gregorian leap year, as in Python's `calendar`. -/
def isLeap (y : Nat) : Bool :=
  (y % 4 == 0 && y % 100 != 0) || y % 400 == 0

/-- Value `calendar.monthrange(year, month)[1]`: number of days of a Gregorian
month. -/
def daysInMonth (y m : Nat) : Nat :=
  if m = 2 then (if isLeap y then 29 else 28)
  else if m = 4 ∨ m = 6 ∨ m = 9 ∨ m = 11 then 30
  else 31

/-- The date part of `current_time - timedelta(days=1)`. -/
def prevDay (d : Date) : Date :=
  if 1 < d.day then ⟨d.year, d.month, d.day - 1⟩
  else if 1 < d.month then ⟨d.year, d.month - 1, daysInMonth d.year (d.month - 1)⟩
  else ⟨d.year - 1, 12, 31⟩

/-- A structurally valid Gregorian date, as every `datetime` value is. -/
def Date.Valid (d : Date) : Prop :=
  1 ≤ d.month ∧ d.month ≤ 12 ∧ 1 ≤ d.day ∧ d.day ≤ daysInMonth d.year d.month

/-- Chronological (lexicographic) order on dates. -/
def Date.lt (d e : Date) : Prop :=
  d.year < e.year ∨ (d.year = e.year ∧
    (d.month < e.month ∨ (d.month = e.month ∧ d.day < e.day)))

/-- Parse `int(s)` for a plain decimal digit string, the documented form of the
two `HH:MM` fields; an empty or non-digit string raises `ValueError` in the
source and is mapped to `none` here. -/
def natOfCharsAux : List Char → Nat → Option Nat
  | [], acc => some acc
  | c :: cs, acc =>
    if '0' ≤ c ∧ c ≤ '9' then natOfCharsAux cs (acc * 10 + (c.toNat - '0'.toNat))
    else none

def natOfChars : List Char → Option Nat
  | [] => none
  | cs => natOfCharsAux cs 0

/-- Python's `s.split(':')` on the character list of `s`. -/
def splitColon : List Char → List (List Char)
  | [] => [[]]
  | c :: cs =>
    if c = ':' then [] :: splitColon cs
    else
      match splitColon cs with
      | [] => [[c]]
      | g :: gs => (c :: g) :: gs

/-- The parse of the `day_start_time` configuration (`main.py` lines
127-132): `hour, minute = map(int, self.day_start_time.split(':'))`
followed by `current_time.replace(...)`, whose range check rejects hours
above `23` and minutes above `59`.  Every failure (wrong number of fields,
non-numeric field, out-of-range value) raises `ValueError`, which the
handler catches. -/
def parseTimeOfDay (s : String) : Option (Nat × Nat) :=
  match splitColon s.toList with
  | [h, m] =>
    match natOfChars h, natOfChars m with
    | some hv, some mv => if hv ≤ 23 ∧ mv ≤ 59 then some (hv, mv) else none
    | _, _ => none
  | _ => none

/-- Effective-date resolution of `handle_deer_checkin` (`main.py` lines
124-139): fall back to `00:00` when the configuration does not parse, then
attribute the event to the previous calendar day exactly when its wall
clock is before the day-start. -/
def effective_date (cfg : String) (d : Date) (t : Time) : Date :=
  let hm := (parseTimeOfDay cfg).getD (0, 0)
  if Time.lt t ⟨hm.1, hm.2, 0⟩ then prevDay d else d

/-- Outcome of a backfill attempt (`handle_retro_checkin`): the three
validation rejections, the two quota rejections, and the committed case. -/
inductive BackfillOutcome where
  | invalidAmount : BackfillOutcome
  | invalidDay : BackfillOutcome
  | futureDay : BackfillOutcome
  | rejectedDaily : Nat → BackfillOutcome
  | rejectedMonthly : Nat → BackfillOutcome
  | ok : BackfillOutcome
deriving DecidableEq, Repr

/-- Handler `handle_retro_checkin` (`main.py` lines 251-333) after command parsing:
the regex delivers a non-negative `amount` and `deer_count <= 0` rejects a
zero amount; then the target day must lie in `[1, daysInMonth]` and must not
be after `today.day`; then the same quota checks as a live check-in run
against the target date, and finally the upsert commits. -/
def handle_retro_checkin (daily_max monthly_max : Nat) (today : Date) (l : Ledger)
    (u : String) (day amount : Nat) : BackfillOutcome × Ledger :=
  if amount = 0 then (BackfillOutcome.invalidAmount, l)
  else if 1 ≤ day ∧ day ≤ daysInMonth today.year today.month then
    if today.day < day then (BackfillOutcome.futureDay, l)
    else
      if 0 < daily_max ∧ daily_max <
          (Ledger.get l u ⟨today.year, today.month, day⟩).getD 0 + amount then
        (BackfillOutcome.rejectedDaily daily_max, l)
      else if 0 < monthly_max ∧ monthly_max <
          monthTotalExcl l u (periodOf ⟨today.year, today.month, day⟩)
            ⟨today.year, today.month, day⟩ +
          (Ledger.get l u ⟨today.year, today.month, day⟩).getD 0 + amount then
        (BackfillOutcome.rejectedMonthly monthly_max, l)
      else (BackfillOutcome.ok,
        Ledger.increment l u ⟨today.year, today.month, day⟩ amount)
  else (BackfillOutcome.invalidDay, l)

/-- The ledger invariant promised by the schema and the write path: the
primary key keeps at most one record per `(user_id, checkin_date)`, and
every stored count is positive (a check-in message carries at least one
deer, a backfill rejects a zero amount). -/
def Ledger.WF (l : Ledger) : Prop :=
  l.Pairwise (fun r s => r.user_id ≠ s.user_id ∨ r.checkin_date ≠ s.checkin_date)
  ∧ ∀ r ∈ l, 0 < r.deer_count

/-- Aggregate `SUM(deer_count)` of one user over one month
(`handle_deer_ranking`, `main.py` line 378, `GROUP BY user_id`). -/
def monthTotal (l : Ledger) (u : String) (p : Period) : Nat :=
  ((l.filter (fun r => decide (r.user_id = u ∧ periodOf r.checkin_date = p))).map
    (fun r => r.deer_count)).sum

/-- The distinct users having a row in the month, in storage order. -/
def usersInMonth (l : Ledger) (p : Period) : List String :=
  ((l.filter (fun r => decide (periodOf r.checkin_date = p))).map
    (fun r => r.user_id)).dedup

/-- Query `SELECT user_id, SUM(deer_count) AS total_deer FROM checkin WHERE
strftime('%Y-%m', checkin_date) = ? GROUP BY user_id`. -/
def groupTotals (l : Ledger) (p : Period) : List (String × Nat) :=
  (usersInMonth l p).map (fun u => (u, monthTotal l u p))

/-- Sorting `ORDER BY total_deer DESC` (stable on ties). -/
def sortDesc (xs : List (String × Nat)) : List (String × Nat) :=
  xs.insertionSort (fun a b => b.2 ≤ a.2)

instance : IsTotal (String × Nat) (fun a b => b.2 ≤ a.2) :=
  ⟨fun a b => le_total b.2 a.2⟩

instance : IsTrans (String × Nat) (fun a b => b.2 ≤ a.2) :=
  ⟨fun _ _ _ hab hbc => le_trans hbc hab⟩

/-- Handler `handle_deer_ranking` (`main.py` lines 374-420): the month's totals in
descending order, restricted to the supplied group-member ids, additionally
filtered by the monthly cap when one is configured, and truncated to the
configured display count. -/
def handle_deer_ranking (monthly_max display_count : Nat) (l : Ledger) (p : Period)
    (members : List String) : List (String × Nat) :=
  (if 0 < monthly_max then
    (((sortDesc (groupTotals l p)).filter (fun x => decide (x.1 ∈ members))).filter
      (fun x => decide (x.2 ≤ monthly_max)))
  else
    ((sortDesc (groupTotals l p)).filter (fun x => decide (x.1 ∈ members)))).take
    display_count

/-- Year resolution of `handle_specific_month_calendar`
(`main.py` lines 706-714): `if target_month > current_month:
target_year = current_year - 1 else: target_year = current_year`. -/
def resolve_query_year_calendar (today : Date) (m : Nat) : Nat :=
  if today.month < m then today.year - 1 else today.year

/-- The identical year resolution of `handle_analysis`
(`main.py` lines 516-524). -/
def resolve_query_year_analysis (today : Date) (m : Nat) : Nat :=
  if today.month < m then today.year - 1 else today.year

/-- Relation stating `p` is not a later period than `q`. -/
def periodLe (p q : Period) : Prop :=
  p.1 < q.1 ∨ (p.1 = q.1 ∧ p.2 ≤ q.2)

/-- One iteration of the `max_consecutive` loop of
`_generate_monthly_analysis_report` (`deer_core.py` lines 200-209); the
state is `(previous sorted day, max_consecutive, current)`. -/
def scanStep : Nat × Nat × Nat → Nat → Nat × Nat × Nat
  | (prev, maxc, cur), x =>
    if x = prev + 1 then (x, max maxc (cur + 1), cur + 1)
    else (x, maxc, 1)

/-- The scan: `max_consecutive = 1; current = 1` and the loop over
`sorted_days[1:]`.  On an empty list the loop body never runs, leaving the
initial `1`; the enclosing report never evaluates it then, see
`monthlyMaxRun`. -/
def maxConsecutiveLoop : List Nat → Nat
  | [] => 1
  | x :: xs => ((xs.foldl scanStep (x, 1, 1)).2).1

/-- The `max_consecutive` value produced by the monthly analysis report
for a per-day mapping (`deer_core.py` lines 186-209): `none` when the
mapping is empty (the function returns the empty report before computing
any statistic), otherwise the scan over the ascending-sorted day numbers
(`sorted(period_data.keys())`). -/
def monthlyMaxRun (period_data : List (Nat × Nat)) : Option Nat :=
  if period_data.isEmpty then none
  else some (maxConsecutiveLoop
    ((period_data.map Prod.fst).insertionSort (fun a b => a ≤ b)))

/-- Length of the initial chain `q, q+1, q+2, ...` at the head of a list. -/
def headRun : Nat → List Nat → Nat
  | _, [] => 0
  | q, x :: xs => if x = q then headRun (q + 1) xs + 1 else 0

/-- Maximum, over all positions, of the chain length starting there. -/
def runsMax : List Nat → Nat
  | [] => 0
  | x :: xs => max (1 + headRun (x + 1) xs) (runsMax xs)

/-- Functional form of the scan kernel: current run length `c` ending at
`p`, remaining input `xs`. -/
def scanMax : Nat → Nat → List Nat → Nat
  | _, c, [] => c
  | p, c, x :: xs => if x = p + 1 then scanMax x (c + 1) xs else max c (scanMax x 1 xs)

theorem get_increment_self (l : Ledger) (u : String) (d : Date) (a : Nat) :
    (Ledger.increment l u d a).get u d = some ((l.get u d).getD 0 + a) := by
  induction l with
  | nil => simp [Ledger.increment, Ledger.get]
  | cons r rs ih =>
    by_cases h : r.user_id = u ∧ r.checkin_date = d
    · simp [Ledger.increment, Ledger.get, h]
    · simp [Ledger.increment, Ledger.get, h, ih]

theorem get_increment_ne (l : Ledger) (u : String) (d : Date) (a : Nat)
    (u' : String) (d' : Date) (h : ¬(u' = u ∧ d' = d)) :
    (Ledger.increment l u d a).get u' d' = l.get u' d' := by
  induction l with
  | nil =>
    simp only [Ledger.increment, Ledger.get]
    rw [if_neg]
    intro hc
    exact h ⟨hc.1.symm, hc.2.symm⟩
  | cons r rs ih =>
    by_cases hr : r.user_id = u ∧ r.checkin_date = d
    · by_cases hr' : r.user_id = u' ∧ r.checkin_date = d'
      · exact absurd ⟨hr'.1.symm.trans hr.1, hr'.2.symm.trans hr.2⟩ h
      · have hcond : ¬(u = u' ∧ d = d') := fun hc =>
          hr' ⟨hr.1.trans hc.1, hr.2.trans hc.2⟩
        simp [Ledger.increment, Ledger.get, hr, hcond]
    · simp [Ledger.increment, Ledger.get, hr, ih]

theorem get_applyIncrements_of_ne_nil (u : String) (d : Date) :
    ∀ (amounts : List Nat) (l : Ledger), amounts ≠ [] →
      (applyIncrements l u d amounts).get u d = some ((l.get u d).getD 0 + amounts.sum)
  | [], _, h => absurd rfl h
  | [a], l, _ => by
    simp [applyIncrements, get_increment_self]
  | a :: b :: as, l, _ => by
    have ih := get_applyIncrements_of_ne_nil u d (b :: as) (Ledger.increment l u d a)
      (by simp)
    simp only [applyIncrements, List.foldl_cons] at ih ⊢
    rw [ih, get_increment_self]
    simp [Nat.add_assoc]

theorem getD_get_applyIncrements (u : String) (d : Date) :
    ∀ (amounts : List Nat) (l : Ledger),
      ((applyIncrements l u d amounts).get u d).getD 0 = (l.get u d).getD 0 + amounts.sum
  | [], l => by simp [applyIncrements]
  | a :: as, l => by
    have := get_applyIncrements_of_ne_nil u d (a :: as) l (by simp)
    rw [this]
    simp

theorem get_applyIncrements_ne (l : Ledger) (u : String) (d : Date) (amounts : List Nat)
    (u' : String) (d' : Date) (h : ¬(u' = u ∧ d' = d)) :
    (applyIncrements l u d amounts).get u' d' = l.get u' d' := by
  induction amounts generalizing l with
  | nil => simp [applyIncrements]
  | cons a as ih =>
    simp only [applyIncrements, List.foldl_cons] at ih ⊢
    rw [ih, get_increment_ne _ _ _ _ _ _ h]

/-- Claim C1:  For every `(user, date)` key, after any sequence of check-in /
backfill increments the stored count equals the previous count plus the sum
of all increment amounts; in particular it is independent of the order of
the increments (two permuted sequences give the same stored value), other
keys are untouched, and `increment(u,d,3)` followed by `increment(u,d,2)`
starting from an empty ledger makes `get(u,d)` return `5`. -/
theorem c1_increments_sum :
    (∀ (l : Ledger) (u : String) (d : Date) (amounts : List Nat),
      ((applyIncrements l u d amounts).get u d).getD 0 = (l.get u d).getD 0 + amounts.sum)
    ∧ (∀ (l : Ledger) (u : String) (d : Date) (amounts amounts' : List Nat),
        amounts.Perm amounts' →
        (applyIncrements l u d amounts).get u d = (applyIncrements l u d amounts').get u d)
    ∧ (∀ (l : Ledger) (u : String) (d : Date) (amounts : List Nat) (u' : String) (d' : Date),
        ¬(u' = u ∧ d' = d) →
        (applyIncrements l u d amounts).get u' d' = l.get u' d')
    ∧ (∀ (u : String) (d : Date),
        (Ledger.increment (Ledger.increment [] u d 3) u d 2).get u d = some 5) := by
  refine ⟨fun l u d amounts => getD_get_applyIncrements u d amounts l,
    fun l u d amounts amounts' hperm => ?_,
    fun l u d amounts u' d' h => get_applyIncrements_ne l u d amounts u' d' h,
    fun u d => ?_⟩
  · rcases amounts with _ | ⟨a, as⟩
    · have : amounts' = [] := hperm.nil_eq.symm
      subst this
      rfl
    · have hne : (a :: as) ≠ ([] : List Nat) := by simp
      have hne' : amounts' ≠ [] := by
        intro hnil
        subst hnil
        exact hne hperm.eq_nil
      rw [get_applyIncrements_of_ne_nil u d _ _ hne,
        get_applyIncrements_of_ne_nil u d _ _ hne', hperm.sum_eq]
  · rw [get_increment_self, get_increment_self]
    simp [Ledger.get]

/-- Witness for C1 at a concrete input. -/
theorem c1_increments_sum_witness :
    (Ledger.increment (Ledger.increment [] "u" ⟨2024, 6, 10⟩ 3) "u" ⟨2024, 6, 10⟩ 2).get
      "u" ⟨2024, 6, 10⟩ = some 5 :=
  c1_increments_sum.2.2.2 "u" ⟨2024, 6, 10⟩

/-- Claim C2:  With caps configured (`0` meaning unlimited), an increment is
rejected iff the daily cap would be exceeded or the monthly cap would be
exceeded, the rejection names exactly the limit that was hit, a rejection
leaves the ledger unchanged, and an accepted attempt commits the upsert.
Concretely, with `daily_max = 5`, `increment(u,d,3)` is accepted and a second
`increment(u,d,3)` is rejected with the daily-limit reason, the ledger
staying at `3`. -/
theorem c2_quota_guard :
    (∀ (daily_max monthly_max : Nat) (l : Ledger) (u : String) (d : Date) (amount : Nat),
      ((handle_deer_checkin daily_max monthly_max l u d amount).1 ≠ CheckinOutcome.accepted ↔
        (0 < daily_max ∧ daily_max < (Ledger.get l u d).getD 0 + amount) ∨
        (0 < monthly_max ∧ monthly_max <
          monthTotalExcl l u (periodOf d) d + (Ledger.get l u d).getD 0 + amount))
      ∧ ((handle_deer_checkin daily_max monthly_max l u d amount).1 =
            CheckinOutcome.rejectedDaily daily_max →
          0 < daily_max ∧ daily_max < (Ledger.get l u d).getD 0 + amount)
      ∧ ((handle_deer_checkin daily_max monthly_max l u d amount).1 =
            CheckinOutcome.rejectedMonthly monthly_max →
          0 < monthly_max ∧ monthly_max <
            monthTotalExcl l u (periodOf d) d + (Ledger.get l u d).getD 0 + amount)
      ∧ ((handle_deer_checkin daily_max monthly_max l u d amount).1 ≠ CheckinOutcome.accepted →
          (handle_deer_checkin daily_max monthly_max l u d amount).2 = l)
      ∧ ((handle_deer_checkin daily_max monthly_max l u d amount).1 = CheckinOutcome.accepted →
          (handle_deer_checkin daily_max monthly_max l u d amount).2 =
            Ledger.increment l u d amount))
    ∧ (∀ (u : String) (d : Date),
        handle_deer_checkin 5 0 [] u d 3 = (CheckinOutcome.accepted, [⟨u, d, 3⟩])
        ∧ handle_deer_checkin 5 0 [⟨u, d, 3⟩] u d 3 =
            (CheckinOutcome.rejectedDaily 5, [⟨u, d, 3⟩])
        ∧ Ledger.get [⟨u, d, 3⟩] u d = some 3) := by
  constructor
  · intro daily_max monthly_max l u d amount
    unfold handle_deer_checkin
    set existing := (Ledger.get l u d).getD 0 with hex
    set mexcl := monthTotalExcl l u (periodOf d) d with hmx
    by_cases hd : 0 < daily_max ∧ daily_max < existing + amount
    · simp [hd]
    · by_cases hm : 0 < monthly_max ∧ monthly_max < mexcl + existing + amount
      · simp [hd, hm]
      · simp [hd, hm]
  · intro u d
    refine ⟨?_, ?_, ?_⟩
    · simp [handle_deer_checkin, Ledger.get, Ledger.increment]
    · simp [handle_deer_checkin, Ledger.get, Ledger.increment]
    · simp [Ledger.get]

/-- Witness for C2: the rejection branch at a concrete input leaves the
ledger unchanged. -/
theorem c2_quota_guard_witness :
    (handle_deer_checkin 5 0 [⟨"u", ⟨2024, 6, 10⟩, 3⟩] "u" ⟨2024, 6, 10⟩ 3).2 =
      [⟨"u", ⟨2024, 6, 10⟩, 3⟩] :=
  (c2_quota_guard.1 5 0 [⟨"u", ⟨2024, 6, 10⟩, 3⟩] "u" ⟨2024, 6, 10⟩ 3).2.2.2.1 (by decide)

/-- Claim C3:  On the first ledger access of a process run, if the stored
`last_cleanup_month` differs from the current year-month (or is absent)
then, with auto-delete enabled, exactly the records outside the current
month are deleted (records of the current month are kept), and
`last_cleanup_month` is set to the current year-month even when the purge is
skipped; any later rollover check in the same process run is a no-op. -/
theorem c3_rollover :
    (∀ (autoDelete : Bool) (current : Period) (s : PluginState),
      s.initDone = false →
      s.db.last_cleanup_month ≠ some current →
      (autoDelete = true →
        (ensure_init autoDelete current s).db.checkin =
          s.db.checkin.filter (fun r => decide (periodOf r.checkin_date = current))
        ∧ (∀ r ∈ (ensure_init autoDelete current s).db.checkin,
            periodOf r.checkin_date = current)
        ∧ (∀ r ∈ s.db.checkin, periodOf r.checkin_date = current →
            r ∈ (ensure_init autoDelete current s).db.checkin))
      ∧ (autoDelete = false →
          (ensure_init autoDelete current s).db.checkin = s.db.checkin)
      ∧ (ensure_init autoDelete current s).db.last_cleanup_month = some current
      ∧ (ensure_init autoDelete current s).initDone = true)
    ∧ (∀ (autoDelete current autoDelete' current' : _) (s : PluginState),
        (ensure_init autoDelete current s).initDone = true →
        ensure_init autoDelete' current' (ensure_init autoDelete current s) =
          ensure_init autoDelete current s) := by
  constructor
  · intro autoDelete current s hinit hlast
    have hs : ensure_init autoDelete current s =
        { db := monthly_cleanup autoDelete current s.db, initDone := true } := by
      simp [ensure_init, hinit]
    have hdb : monthly_cleanup autoDelete current s.db =
        { checkin :=
            if autoDelete then
              s.db.checkin.filter (fun r => decide (periodOf r.checkin_date = current))
            else s.db.checkin,
          last_cleanup_month := some current } := by
      simp [monthly_cleanup, hlast]
    refine ⟨fun had => ?_, fun had => ?_, ?_, ?_⟩
    · subst had
      rw [hs]
      simp only [hdb, if_pos rfl]
      refine ⟨rfl, fun r hr => ?_, fun r hr hp => ?_⟩
      · have := List.of_mem_filter hr
        simpa using this
      · exact List.mem_filter.2 ⟨hr, by simpa using hp⟩
    · subst had
      rw [hs]
      simp [hdb]
    · rw [hs]
      simp [hdb]
    · rw [hs]
  · intro autoDelete current autoDelete' current' s hdone
    unfold ensure_init at hdone ⊢
    rw [if_pos hdone]

/-- Witness for C3: a concrete run with stale metadata purges the foreign
month and stamps the current one. -/
theorem c3_rollover_witness :
    (ensure_init true (2024, 6)
      ⟨⟨[⟨"u", ⟨2024, 5, 3⟩, 2⟩, ⟨"u", ⟨2024, 6, 1⟩, 1⟩], some (2024, 5)⟩, false⟩).db.checkin =
        [⟨"u", ⟨2024, 6, 1⟩, 1⟩] := by
  have h := (c3_rollover.1 true (2024, 6)
    ⟨⟨[⟨"u", ⟨2024, 5, 3⟩, 2⟩, ⟨"u", ⟨2024, 6, 1⟩, 1⟩], some (2024, 5)⟩, false⟩
    rfl (by decide)).1 rfl
  rw [h.1]
  decide

theorem timeLt_day_start (t : Time) (H M : Nat) :
    Time.lt t ⟨H, M, 0⟩ ↔ (t.hour < H ∨ (t.hour = H ∧ t.minute < M)) := by
  unfold Time.lt
  simp only
  omega

theorem one_le_daysInMonth (y m : Nat) : 1 ≤ daysInMonth y m := by
  unfold daysInMonth
  split
  · split <;> omega
  · split <;> omega

theorem daysInMonth_twelve (y : Nat) : daysInMonth y 12 = 31 := by
  simp [daysInMonth]

theorem prevDay_valid (d : Date) (hv : Date.Valid d) (hy : 1 ≤ d.year) :
    Date.Valid (prevDay d) ∧ Date.lt (prevDay d) d := by
  obtain ⟨hm1, hm12, hd1, hdm⟩ := hv
  unfold prevDay
  by_cases hday : 1 < d.day
  · rw [if_pos hday]
    unfold Date.Valid Date.lt
    dsimp only
    omega
  · rw [if_neg hday]
    by_cases hmon : 1 < d.month
    · rw [if_pos hmon]
      unfold Date.Valid Date.lt
      dsimp only
      have hone := one_le_daysInMonth d.year (d.month - 1)
      omega
    · rw [if_neg hmon]
      unfold Date.Valid Date.lt
      dsimp only
      rw [daysInMonth_twelve]
      omega

theorem prevDay_between (d e : Date) (hv : Date.Valid d) (hy : 1 ≤ d.year)
    (he : Date.Valid e) (h1 : Date.lt (prevDay d) e) (h2 : Date.lt e d) : False := by
  obtain ⟨hm1, hm12, hd1, hdm⟩ := hv
  obtain ⟨hem1, hem12, hed1, hedm⟩ := he
  unfold prevDay at h1
  unfold Date.lt at h1 h2
  by_cases hday : 1 < d.day
  · rw [if_pos hday] at h1
    dsimp only at h1
    omega
  · rw [if_neg hday] at h1
    by_cases hmon : 1 < d.month
    · rw [if_pos hmon] at h1
      dsimp only at h1
      have hyy : e.year = d.year := by omega
      have hmm : d.month - 1 = e.month := by omega
      rw [hyy, ← hmm] at hedm
      omega
    · rw [if_neg hmon] at h1
      dsimp only at h1
      have h12 : e.month = 12 := by omega
      rw [h12, daysInMonth_twelve] at hedm
      omega

/-- Claim C4:  For every event timestamp and every parseable day-start `HH:MM`,
the effective date is the calendar day before the event's date exactly when
the event's wall-clock time of day is strictly earlier than the day-start
(seconds past the minute never flip the comparison), and the event's own
date otherwise; `prevDay` really is the calendar day before (valid, smaller,
with no valid date strictly in between).  With day-start `04:00`, an event
at `03:59` on 2024-06-10 resolves to 2024-06-09 and an event at `04:00`
resolves to 2024-06-10. -/
theorem c4_effective_date :
    (∀ (cfg : String) (H M : Nat) (d : Date) (t : Time),
      parseTimeOfDay cfg = some (H, M) →
      ((t.hour < H ∨ (t.hour = H ∧ t.minute < M)) →
          effective_date cfg d t = prevDay d)
      ∧ (¬(t.hour < H ∨ (t.hour = H ∧ t.minute < M)) →
          effective_date cfg d t = d)
      ∧ (Date.Valid d → 1 ≤ d.year →
          Date.Valid (prevDay d) ∧ Date.lt (prevDay d) d
          ∧ ∀ e, Date.Valid e → Date.lt (prevDay d) e → Date.lt e d → False))
    ∧ effective_date "04:00" ⟨2024, 6, 10⟩ ⟨3, 59, 0⟩ = ⟨2024, 6, 9⟩
    ∧ effective_date "04:00" ⟨2024, 6, 10⟩ ⟨3, 59, 59⟩ = ⟨2024, 6, 9⟩
    ∧ effective_date "04:00" ⟨2024, 6, 10⟩ ⟨4, 0, 0⟩ = ⟨2024, 6, 10⟩ := by
  refine ⟨fun cfg H M d t hp => ?_, by decide, by decide, by decide⟩
  have heff : effective_date cfg d t = if Time.lt t ⟨H, M, 0⟩ then prevDay d else d := by
    simp [effective_date, hp]
  refine ⟨fun hlt => ?_, fun hge => ?_, fun hvd hy => ?_⟩
  · rw [heff, if_pos ((timeLt_day_start t H M).2 hlt)]
  · rw [heff, if_neg (fun hc => hge ((timeLt_day_start t H M).1 hc))]
  · exact ⟨(prevDay_valid d hvd hy).1, (prevDay_valid d hvd hy).2,
      fun e hve hlt1 hlt2 => prevDay_between d e hvd hy hve hlt1 hlt2⟩

/-- Witness for C4 at a concrete parseable configuration and timestamp. -/
theorem c4_effective_date_witness :
    effective_date "04:00" ⟨2024, 7, 1⟩ ⟨2, 30, 15⟩ = prevDay ⟨2024, 7, 1⟩ :=
  ((c4_effective_date.1 "04:00" 4 0 ⟨2024, 7, 1⟩ ⟨2, 30, 15⟩ (by decide)).1
    (by decide))

/-- Claim C9:  If the configured day-start string cannot be parsed as a valid
`HH:MM` time of day, the computation silently falls back to a day-start of
`00:00`, so every event's effective date is its own calendar date. -/
theorem c9_malformed_day_start :
    (∀ (cfg : String), parseTimeOfDay cfg = none →
      ∀ (d : Date) (t : Time), effective_date cfg d t = d)
    ∧ parseTimeOfDay "abc" = none
    ∧ parseTimeOfDay "7:60" = none
    ∧ parseTimeOfDay "25:00" = none
    ∧ parseTimeOfDay "1:2:3" = none
    ∧ parseTimeOfDay "" = none := by
  refine ⟨fun cfg hp d t => ?_, by decide, by decide, by decide, by decide, by decide⟩
  unfold effective_date
  rw [hp]
  rw [if_neg]
  intro hc
  rcases hc with hc | ⟨_, hc | ⟨_, hc⟩⟩ <;> exact Nat.not_lt_zero _ hc

/-- Witness for C9 at a concrete malformed configuration. -/
theorem c9_malformed_day_start_witness :
    effective_date "abc" ⟨2024, 6, 10⟩ ⟨0, 30, 0⟩ = ⟨2024, 6, 10⟩ :=
  c9_malformed_day_start.1 "abc" (by decide) ⟨2024, 6, 10⟩ ⟨0, 30, 0⟩

/-- Claim C7:  A backfill request is rejected before any ledger mutation when
the target day lies outside `[1, days-in-current-month]`, when it lies after
today's day-of-month, or when the amount is not a positive integer; the
three rejections are distinct outcomes and each leaves the ledger
unchanged. -/
theorem c7_backfill_validation :
    (∀ (daily_max monthly_max : Nat) (today : Date) (l : Ledger) (u : String)
        (day amount : Nat),
      (amount = 0 →
        handle_retro_checkin daily_max monthly_max today l u day amount =
          (BackfillOutcome.invalidAmount, l))
      ∧ (0 < amount → (day < 1 ∨ daysInMonth today.year today.month < day) →
          handle_retro_checkin daily_max monthly_max today l u day amount =
            (BackfillOutcome.invalidDay, l))
      ∧ (0 < amount → 1 ≤ day → day ≤ daysInMonth today.year today.month →
          today.day < day →
          handle_retro_checkin daily_max monthly_max today l u day amount =
            (BackfillOutcome.futureDay, l))
      ∧ ((amount = 0 ∨ day < 1 ∨ daysInMonth today.year today.month < day ∨
            today.day < day) →
          (handle_retro_checkin daily_max monthly_max today l u day amount).2 = l
          ∧ ((handle_retro_checkin daily_max monthly_max today l u day amount).1 =
                BackfillOutcome.invalidAmount
             ∨ (handle_retro_checkin daily_max monthly_max today l u day amount).1 =
                BackfillOutcome.invalidDay
             ∨ (handle_retro_checkin daily_max monthly_max today l u day amount).1 =
                BackfillOutcome.futureDay)))
    ∧ (BackfillOutcome.invalidAmount ≠ BackfillOutcome.invalidDay
       ∧ BackfillOutcome.invalidAmount ≠ BackfillOutcome.futureDay
       ∧ BackfillOutcome.invalidDay ≠ BackfillOutcome.futureDay) := by
  refine ⟨fun daily_max monthly_max today l u day amount => ?_,
    by decide, by decide, by decide⟩
  refine ⟨fun h0 => ?_, fun hpos hbad => ?_, fun hpos h1 h2 hfut => ?_, fun hrej => ?_⟩
  · unfold handle_retro_checkin
    rw [if_pos h0]
  · unfold handle_retro_checkin
    rw [if_neg (by omega), if_neg (by omega)]
  · unfold handle_retro_checkin
    rw [if_neg (by omega), if_pos ⟨h1, h2⟩, if_pos hfut]
  · rcases hrej with h0 | hbad | hbad | hfut
    · unfold handle_retro_checkin
      rw [if_pos h0]
      exact ⟨rfl, Or.inl rfl⟩
    · unfold handle_retro_checkin
      by_cases h0 : amount = 0
      · rw [if_pos h0]
        exact ⟨rfl, Or.inl rfl⟩
      · rw [if_neg h0, if_neg (by omega)]
        exact ⟨rfl, Or.inr (Or.inl rfl)⟩
    · unfold handle_retro_checkin
      by_cases h0 : amount = 0
      · rw [if_pos h0]
        exact ⟨rfl, Or.inl rfl⟩
      · rw [if_neg h0, if_neg (by omega)]
        exact ⟨rfl, Or.inr (Or.inl rfl)⟩
    · unfold handle_retro_checkin
      by_cases h0 : amount = 0
      · rw [if_pos h0]
        exact ⟨rfl, Or.inl rfl⟩
      · rw [if_neg h0]
        by_cases hd : 1 ≤ day ∧ day ≤ daysInMonth today.year today.month
        · rw [if_pos hd, if_pos hfut]
          exact ⟨rfl, Or.inr (Or.inr rfl)⟩
        · rw [if_neg hd]
          exact ⟨rfl, Or.inr (Or.inl rfl)⟩

/-- Witness for C7: a concrete future-day backfill is rejected with the
future-day outcome. -/
theorem c7_backfill_validation_witness :
    handle_retro_checkin 0 0 ⟨2024, 6, 10⟩ [] "u" 15 2 = (BackfillOutcome.futureDay, []) :=
  (c7_backfill_validation.1 0 0 ⟨2024, 6, 10⟩ [] "u" 15 2).2.2.1
    (by decide) (by decide) (by decide) (by decide)

theorem increment_key_mem (l : Ledger) (u : String) (d : Date) (a : Nat) (r' : Record)
    (h : r' ∈ Ledger.increment l u d a) :
    (r'.user_id = u ∧ r'.checkin_date = d) ∨
      ∃ r ∈ l, r'.user_id = r.user_id ∧ r'.checkin_date = r.checkin_date := by
  induction l with
  | nil =>
    simp only [Ledger.increment, List.mem_singleton] at h
    subst h
    exact Or.inl ⟨rfl, rfl⟩
  | cons r rs ih =>
    by_cases hr : r.user_id = u ∧ r.checkin_date = d
    · rw [Ledger.increment, if_pos hr] at h
      rcases List.mem_cons.1 h with h | h
      · subst h
        exact Or.inr ⟨r, List.mem_cons_self r rs, rfl, rfl⟩
      · exact Or.inr ⟨r', List.mem_cons_of_mem r h, rfl, rfl⟩
    · rw [Ledger.increment, if_neg hr] at h
      rcases List.mem_cons.1 h with h | h
      · exact Or.inr ⟨r, List.mem_cons_self r rs, by rw [h], by rw [h]⟩
      · rcases ih h with hk | ⟨s, hs, hk⟩
        · exact Or.inl hk
        · exact Or.inr ⟨s, List.mem_cons_of_mem r hs, hk⟩

theorem wf_increment (l : Ledger) (u : String) (d : Date) (a : Nat)
    (hwf : Ledger.WF l) (ha : 0 < a) : Ledger.WF (Ledger.increment l u d a) := by
  induction l with
  | nil =>
    constructor
    · simp [Ledger.increment]
    · intro r hr
      simp only [Ledger.increment, List.mem_singleton] at hr
      subst hr
      exact ha
  | cons r rs ih =>
    obtain ⟨hpair, hpos⟩ := hwf
    rw [List.pairwise_cons] at hpair
    obtain ⟨hhead, hrs⟩ := hpair
    have hwfrs : Ledger.WF rs := ⟨hrs, fun s hs => hpos s (List.mem_cons_of_mem r hs)⟩
    by_cases hr : r.user_id = u ∧ r.checkin_date = d
    · rw [Ledger.increment, if_pos hr]
      refine ⟨List.pairwise_cons.2 ⟨fun s hs => hhead s hs, hrs⟩, fun s hs => ?_⟩
      rcases List.mem_cons.1 hs with h | h
      · subst h
        have := hpos r (List.mem_cons_self r rs)
        simp only
        omega
      · exact hpos s (List.mem_cons_of_mem r h)
    · rw [Ledger.increment, if_neg hr]
      obtain ⟨hrsWF, hrsPos⟩ := ih hwfrs
      refine ⟨List.pairwise_cons.2 ⟨fun s hs => ?_, hrsWF⟩, fun s hs => ?_⟩
      · rcases increment_key_mem rs u d a s hs with ⟨hsu, hsd⟩ | ⟨t, ht, htu, htd⟩
        · rcases Decidable.not_and_iff_or_not.1 hr with hne | hne
          · exact Or.inl (fun hc => hne (hc.trans hsu))
          · exact Or.inr (fun hc => hne (hc.trans hsd))
        · rcases hhead t ht with hne | hne
          · exact Or.inl (fun hc => hne (hc.trans htu))
          · exact Or.inr (fun hc => hne (hc.trans htd))
      · rcases List.mem_cons.1 hs with h | h
        · rw [h]
          exact hpos r (List.mem_cons_self r rs)
        · exact hrsPos s h

theorem getD_le_increment (l : Ledger) (u : String) (d : Date) (a : Nat)
    (u' : String) (d' : Date) :
    (Ledger.get l u' d').getD 0 ≤ ((Ledger.increment l u d a).get u' d').getD 0 := by
  by_cases h : u' = u ∧ d' = d
  · obtain ⟨hu, hd⟩ := h
    subst hu
    subst hd
    rw [get_increment_self]
    simp
  · rw [get_increment_ne l u d a u' d' h]

theorem wf_filter (l : Ledger) (p : Record → Bool) (hwf : Ledger.WF l) :
    Ledger.WF (l.filter p) :=
  ⟨hwf.1.sublist (List.filter_sublist l),
    fun r hr => hwf.2 r (List.mem_of_mem_filter hr)⟩

theorem checkin_ledger_cases (daily_max monthly_max : Nat) (l : Ledger) (u : String)
    (d : Date) (a : Nat) :
    (handle_deer_checkin daily_max monthly_max l u d a).2 = l ∨
      (handle_deer_checkin daily_max monthly_max l u d a).2 = Ledger.increment l u d a := by
  unfold handle_deer_checkin
  split
  · exact Or.inl rfl
  · split
    · exact Or.inl rfl
    · exact Or.inr rfl

theorem retro_ledger_cases (daily_max monthly_max : Nat) (today : Date) (l : Ledger)
    (u : String) (day amount : Nat) :
    (handle_retro_checkin daily_max monthly_max today l u day amount).2 = l ∨
      (0 < amount ∧
        (handle_retro_checkin daily_max monthly_max today l u day amount).2 =
          Ledger.increment l u ⟨today.year, today.month, day⟩ amount) := by
  unfold handle_retro_checkin
  by_cases h0 : amount = 0
  · rw [if_pos h0]
    exact Or.inl rfl
  · rw [if_neg h0]
    split
    · split
      · exact Or.inl rfl
      · split
        · exact Or.inl rfl
        · split
          · exact Or.inl rfl
          · exact Or.inr ⟨by omega, rfl⟩
    · exact Or.inl rfl

/-- Claim C8:  Every operation preserves the ledger invariant (at most one
record per `(user_id, checkin_date)`, every stored count positive): a first
increment creates the record with the increment amount, later increments on
the same key merge additively instead of overwriting, no increment path ever
decreases a stored count, and the check-in handler, the backfill handler and
the monthly purge all preserve well-formedness. -/
theorem c8_invariant_preserved :
    (∀ (l : Ledger) (u : String) (d : Date) (a : Nat), Ledger.WF l → 0 < a →
      Ledger.WF (Ledger.increment l u d a)
      ∧ (Ledger.get l u d = none → (Ledger.increment l u d a).get u d = some a)
      ∧ (∀ c, Ledger.get l u d = some c →
          (Ledger.increment l u d a).get u d = some (c + a))
      ∧ (∀ (u' : String) (d' : Date),
          (Ledger.get l u' d').getD 0 ≤ ((Ledger.increment l u d a).get u' d').getD 0))
    ∧ (∀ (daily_max monthly_max : Nat) (l : Ledger) (u : String) (d : Date) (a : Nat),
        Ledger.WF l → 0 < a →
        Ledger.WF (handle_deer_checkin daily_max monthly_max l u d a).2
        ∧ ∀ (u' : String) (d' : Date),
            (Ledger.get l u' d').getD 0 ≤
              (Ledger.get (handle_deer_checkin daily_max monthly_max l u d a).2 u' d').getD 0)
    ∧ (∀ (daily_max monthly_max : Nat) (today : Date) (l : Ledger) (u : String)
          (day amount : Nat), Ledger.WF l →
        Ledger.WF (handle_retro_checkin daily_max monthly_max today l u day amount).2
        ∧ ∀ (u' : String) (d' : Date),
            (Ledger.get l u' d').getD 0 ≤
              (Ledger.get
                (handle_retro_checkin daily_max monthly_max today l u day amount).2
                u' d').getD 0)
    ∧ (∀ (l : Ledger) (current : Period), Ledger.WF l →
        Ledger.WF (l.filter (fun r => decide (periodOf r.checkin_date = current)))) := by
  refine ⟨fun l u d a hwf ha => ?_, fun dm mm l u d a hwf ha => ?_,
    fun dm mm today l u day amount hwf => ?_, fun l current hwf => wf_filter l _ hwf⟩
  · refine ⟨wf_increment l u d a hwf ha, fun hnone => ?_, fun c hc => ?_,
      fun u' d' => getD_le_increment l u d a u' d'⟩
    · rw [get_increment_self, hnone]
      simp
    · rw [get_increment_self, hc]
      rfl
  · rcases checkin_ledger_cases dm mm l u d a with h | h <;> rw [h]
    · exact ⟨hwf, fun u' d' => le_refl _⟩
    · exact ⟨wf_increment l u d a hwf ha, fun u' d' => getD_le_increment l u d a u' d'⟩
  · rcases retro_ledger_cases dm mm today l u day amount with h | ⟨ha, h⟩ <;> rw [h]
    · exact ⟨hwf, fun u' d' => le_refl _⟩
    · exact ⟨wf_increment l u _ amount hwf ha,
        fun u' d' => getD_le_increment l u _ amount u' d'⟩

/-- Witness for C8: incrementing a fresh key of a concrete well-formed
ledger preserves well-formedness. -/
theorem c8_invariant_preserved_witness :
    Ledger.WF (Ledger.increment [⟨"u", ⟨2024, 6, 9⟩, 2⟩] "u" ⟨2024, 6, 10⟩ 3) :=
  (c8_invariant_preserved.1 [⟨"u", ⟨2024, 6, 9⟩, 2⟩] "u" ⟨2024, 6, 10⟩ 3
    ⟨by decide, by decide⟩ (by decide)).1

theorem ranking_sublist_sortDesc (monthly_max display_count : Nat) (l : Ledger)
    (p : Period) (members : List String) :
    (handle_deer_ranking monthly_max display_count l p members).Sublist
      (sortDesc (groupTotals l p)) := by
  unfold handle_deer_ranking
  by_cases hmm : 0 < monthly_max
  · rw [if_pos hmm]
    exact (List.take_sublist _ _).trans
      ((List.filter_sublist _).trans (List.filter_sublist _))
  · rw [if_neg hmm]
    exact (List.take_sublist _ _).trans (List.filter_sublist _)

/-- Claim C6:  The group ranking consists of the month's per-user totals,
restricted to the supplied member ids, with totals above the monthly cap
removed when that cap is configured, sorted descending by total, and
truncated to the display count; on totals `{A:10, B:30, C:20}` with display
count `2` the result is `[(B,30), (C,20)]` in that order. -/
theorem c6_group_ranking :
    (∀ (monthly_max display_count : Nat) (l : Ledger) (p : Period) (members : List String),
      List.Sorted (fun a b : String × Nat => b.2 ≤ a.2)
        (handle_deer_ranking monthly_max display_count l p members)
      ∧ (handle_deer_ranking monthly_max display_count l p members).length ≤ display_count
      ∧ (∀ x ∈ handle_deer_ranking monthly_max display_count l p members,
          x.1 ∈ members ∧ x.2 = monthTotal l x.1 p ∧
            (0 < monthly_max → x.2 ≤ monthly_max)))
    ∧ handle_deer_ranking 0 2
        [⟨"A", ⟨2024, 6, 1⟩, 10⟩, ⟨"B", ⟨2024, 6, 2⟩, 30⟩, ⟨"C", ⟨2024, 6, 3⟩, 20⟩]
        (2024, 6) ["A", "B", "C"] = [("B", 30), ("C", 20)] := by
  constructor
  · intro monthly_max display_count l p members
    have hsorted : List.Sorted (fun a b : String × Nat => b.2 ≤ a.2)
        (sortDesc (groupTotals l p)) :=
      List.sorted_insertionSort _ _
    refine ⟨List.Pairwise.sublist
      (ranking_sublist_sortDesc monthly_max display_count l p members) hsorted,
      ?_, fun x hx => ?_⟩
    · unfold handle_deer_ranking
      by_cases hmm : 0 < monthly_max
      · rw [if_pos hmm]
        exact List.length_take_le _ _
      · rw [if_neg hmm]
        exact List.length_take_le _ _
    · have hx' : x ∈ (sortDesc (groupTotals l p)).filter
          (fun x => decide (x.1 ∈ members)) ∧ (0 < monthly_max → x.2 ≤ monthly_max) := by
        unfold handle_deer_ranking at hx
        by_cases hmm : 0 < monthly_max
        · rw [if_pos hmm] at hx
          have hx2 := List.mem_of_mem_take hx
          refine ⟨List.mem_of_mem_filter hx2, fun _ => ?_⟩
          have := (List.mem_filter.1 hx2).2
          simpa using this
        · rw [if_neg hmm] at hx
          exact ⟨List.mem_of_mem_take hx, fun h => absurd h hmm⟩
      obtain ⟨hxf, hcap⟩ := hx'
      have hmem := (List.mem_filter.1 hxf).1
      have hmemb : x.1 ∈ members := by
        have := (List.mem_filter.1 hxf).2
        simpa using this
      have hgt : x ∈ groupTotals l p :=
        ((List.perm_insertionSort _ _).mem_iff).1 hmem
      obtain ⟨u, _, hux⟩ := List.mem_map.1 hgt
      refine ⟨hmemb, ?_, hcap⟩
      rw [← hux]
  · decide

/-- Witness for C6: the cap filter is vacuous for an element of a concrete
ranking when the cap is configured. -/
theorem c6_group_ranking_witness :
    ("B", (30 : Nat)).1 ∈ ["A", "B", "C"] :=
  ((c6_group_ranking.1 40 2
    [⟨"A", ⟨2024, 6, 1⟩, 10⟩, ⟨"B", ⟨2024, 6, 2⟩, 30⟩, ⟨"C", ⟨2024, 6, 3⟩, 20⟩]
    (2024, 6) ["A", "B", "C"]).2.2 ("B", 30) (by decide)).1

/-- Claim C10:  Both month-only query commands (specific-month calendar and
monthly analysis) resolve the year identically: to the previous calendar
year exactly when the requested month number exceeds the current month, and
to the current year otherwise — equivalently, to the most recent occurrence
of that month that is not in the future. -/
theorem c10_month_query_year :
    ∀ (today : Date) (m : Nat), 1 ≤ m → m ≤ 12 → 1 ≤ today.year → 1 ≤ today.month →
      today.month ≤ 12 →
      resolve_query_year_calendar today m = resolve_query_year_analysis today m
      ∧ (today.month < m ↔ resolve_query_year_calendar today m = today.year - 1
            ∧ resolve_query_year_calendar today m < today.year)
      ∧ (m ≤ today.month ↔ resolve_query_year_calendar today m = today.year)
      ∧ periodLe (resolve_query_year_calendar today m, m) (today.year, today.month)
      ∧ (∀ y, periodLe (y, m) (today.year, today.month) →
          y ≤ resolve_query_year_calendar today m) := by
  intro today m h1 h12 hy hm1 hm12
  unfold resolve_query_year_calendar resolve_query_year_analysis periodLe
  by_cases h : today.month < m
  · rw [if_pos h]
    exact ⟨rfl, by omega, by omega, by dsimp only; omega,
      fun y hle => by dsimp only at hle ⊢; omega⟩
  · rw [if_neg h]
    exact ⟨rfl, by omega, by omega, by dsimp only; omega,
      fun y hle => by dsimp only at hle ⊢; omega⟩

/-- Witness for C10: in June, a query for month 11 refers to the previous
year. -/
theorem c10_month_query_year_witness :
    resolve_query_year_calendar ⟨2024, 6, 10⟩ 11 = 2024 - 1 :=
  ((c10_month_query_year ⟨2024, 6, 10⟩ 11 (by decide) (by decide) (by decide)
    (by decide) (by decide)).2.1.1 (by decide)).1

theorem le_scanMax : ∀ (xs : List Nat) (p c : Nat), c ≤ scanMax p c xs
  | [], _, _ => le_refl _
  | x :: xs, p, c => by
    unfold scanMax
    by_cases h : x = p + 1
    · rw [if_pos h]
      exact le_trans (Nat.le_succ c) (le_scanMax xs x (c + 1))
    · rw [if_neg h]
      exact le_max_left _ _

theorem foldl_scanStep : ∀ (xs : List Nat) (p m c : Nat), 1 ≤ c → c ≤ m →
    ((xs.foldl scanStep (p, m, c)).2).1 = max m (scanMax p c xs)
  | [], p, m, c, _, hcm => by
    simp only [List.foldl_nil, scanMax]
    omega
  | x :: xs, p, m, c, hc, hcm => by
    simp only [List.foldl_cons, scanStep, scanMax]
    by_cases h : x = p + 1
    · rw [if_pos h, if_pos h]
      rw [foldl_scanStep xs x (max m (c + 1)) (c + 1) (by omega) (le_max_right _ _)]
      have hS := le_scanMax xs x (c + 1)
      omega
    · rw [if_neg h, if_neg h]
      rw [foldl_scanStep xs x m 1 (le_refl 1) (le_trans hc hcm)]
      omega

theorem scanMax_eq : ∀ (xs : List Nat) (p c : Nat),
    scanMax p c xs = max (c + headRun (p + 1) xs) (runsMax xs)
  | [], _, c => by simp [scanMax, headRun, runsMax]
  | x :: xs, p, c => by
    unfold scanMax headRun runsMax
    by_cases h : x = p + 1
    · rw [if_pos h, if_pos h, scanMax_eq xs x (c + 1)]
      rw [show x + 1 = p + 1 + 1 by omega]
      omega
    · rw [if_neg h, if_neg h, scanMax_eq xs x 1]
      omega

theorem loop_eq_runsMax (x : Nat) (xs : List Nat) :
    maxConsecutiveLoop (x :: xs) = runsMax (x :: xs) := by
  have h1 : maxConsecutiveLoop (x :: xs) = ((xs.foldl scanStep (x, 1, 1)).2).1 := rfl
  rw [h1, foldl_scanStep xs x 1 1 (le_refl 1) (le_refl 1), scanMax_eq xs x 1]
  have h2 : runsMax (x :: xs) = max (1 + headRun (x + 1) xs) (runsMax xs) := rfl
  rw [h2]
  omega

theorem headRun_mem : ∀ (xs : List Nat) (q j : Nat), j < headRun q xs → q + j ∈ xs
  | [], q, j, h => by simp [headRun] at h
  | x :: xs, q, j, h => by
    unfold headRun at h
    by_cases hx : x = q
    · rw [if_pos hx] at h
      match j with
      | 0 => simp [hx]
      | j + 1 =>
        have := headRun_mem xs (q + 1) j (by omega)
        have harith : q + (j + 1) = q + 1 + j := by omega
        rw [harith]
        exact List.mem_cons_of_mem x this
    · rw [if_neg hx] at h
      omega

theorem runsMax_achieved : ∀ (s : List Nat), s ≠ [] →
    ∃ d, ∀ i < runsMax s, d + i ∈ s
  | [], h => absurd rfl h
  | x :: xs, _ => by
    unfold runsMax
    by_cases hAB : runsMax xs ≤ 1 + headRun (x + 1) xs
    · rw [Nat.max_eq_left hAB]
      refine ⟨x, fun i hi => ?_⟩
      match i with
      | 0 => simp
      | j + 1 =>
        have := headRun_mem xs (x + 1) j (by omega)
        have harith : x + (j + 1) = x + 1 + j := by omega
        rw [harith]
        exact List.mem_cons_of_mem x this
    · rw [Nat.max_eq_right (by omega)]
      have hne : xs ≠ [] := by
        intro hnil
        rw [hnil] at hAB
        simp [runsMax] at hAB
      obtain ⟨d, hd⟩ := runsMax_achieved xs hne
      exact ⟨d, fun i hi => List.mem_cons_of_mem x (hd i hi)⟩

theorem le_headRun_of_sorted : ∀ (xs : List Nat), List.Sorted (· < ·) xs →
    ∀ (q k : Nat), (∀ y ∈ xs, q ≤ y) → (∀ j < k, q + j ∈ xs) → k ≤ headRun q xs
  | [], _, q, k, _, hrun => by
    match k with
    | 0 => exact Nat.zero_le _
    | k + 1 => exact absurd (hrun 0 (by omega)) (List.not_mem_nil _)
  | y :: xs, hs, q, k, hbound, hrun => by
    obtain ⟨hy, hs'⟩ := List.sorted_cons.1 hs
    match k with
    | 0 => exact Nat.zero_le _
    | k + 1 =>
      have hq : q ∈ y :: xs := by
        have := hrun 0 (by omega)
        simpa using this
      by_cases hyq : y = q
      · unfold headRun
        rw [if_pos hyq]
        have hk : k ≤ headRun (q + 1) xs := by
          refine le_headRun_of_sorted xs hs' (q + 1) k (fun b hb => ?_) (fun j hj => ?_)
          · have := hy b hb
            omega
          · have hmem := hrun (j + 1) (by omega)
            rcases List.mem_cons.1 hmem with hh | hh
            · omega
            · have harith : q + (j + 1) = q + 1 + j := by omega
              rw [← harith]
              exact hh
        omega
      · rcases List.mem_cons.1 hq with hh | hh
        · exact absurd hh.symm hyq
        · have h1 := hy q hh
          have h2 := hbound y (List.mem_cons_self y xs)
          omega

theorem runsMax_ub : ∀ (s : List Nat), List.Sorted (· < ·) s →
    ∀ (d k : Nat), (∀ i < k, d + i ∈ s) → k ≤ runsMax s
  | [], _, d, k, hrun => by
    match k with
    | 0 => exact Nat.zero_le _
    | k + 1 => exact absurd (hrun 0 (by omega)) (List.not_mem_nil _)
  | x :: xs, hs, d, k, hrun => by
    obtain ⟨hx, hs'⟩ := List.sorted_cons.1 hs
    match k with
    | 0 => exact Nat.zero_le _
    | k + 1 =>
      have hd : d ∈ x :: xs := by
        have := hrun 0 (by omega)
        simpa using this
      rcases List.mem_cons.1 hd with hdx | hdx
      · subst hdx
        have hk : k ≤ headRun (d + 1) xs := by
          refine le_headRun_of_sorted xs hs' (d + 1) k (fun b hb => ?_) (fun j hj => ?_)
          · have := hx b hb
            omega
          · have hmem := hrun (j + 1) (by omega)
            rcases List.mem_cons.1 hmem with hh | hh
            · omega
            · have harith : d + (j + 1) = d + 1 + j := by omega
              rw [← harith]
              exact hh
        unfold runsMax
        have : k + 1 ≤ 1 + headRun (d + 1) xs := by omega
        exact le_trans this (le_max_left _ _)
      · have hall : ∀ i < k + 1, d + i ∈ xs := by
          intro i hi
          have hmem := hrun i hi
          rcases List.mem_cons.1 hmem with hh | hh
          · have := hx d hdx
            omega
          · exact hh
        have := runsMax_ub xs hs' d (k + 1) hall
        unfold runsMax
        exact le_trans this (le_max_right _ _)

theorem sorted_lt_of_le_nodup (s : List Nat) (hle : List.Sorted (· ≤ ·) s)
    (hnd : s.Nodup) : List.Sorted (· < ·) s :=
  (hle.and hnd).imp fun h => lt_of_le_of_ne h.1 h.2

/-- Claim C5, amended:  For every nonempty per-day mapping with distinct day
keys, the `max_consecutive` value of the monthly analysis report is the
length of the longest run of consecutive day numbers present in the
mapping (it is attained by some run and bounds every run); days
`{1,2,3,5,6}` give `3` and days `{1,3,5}` give `1`.  (For the empty mapping
the report computes no run value at all, see the counterexample.) -/
theorem c5_max_consecutive_run :
    (∀ (period_data : List (Nat × Nat)), period_data ≠ [] →
      (period_data.map Prod.fst).Nodup →
      ∀ k, monthlyMaxRun period_data = some k →
        (∃ d, ∀ i < k, d + i ∈ period_data.map Prod.fst)
        ∧ (∀ (n d : Nat), (∀ i < n, d + i ∈ period_data.map Prod.fst) → n ≤ k))
    ∧ monthlyMaxRun [(1, 1), (2, 1), (3, 1), (5, 1), (6, 1)] = some 3
    ∧ monthlyMaxRun [(1, 1), (3, 1), (5, 1)] = some 1 := by
  refine ⟨fun period_data hne hnd k hk => ?_, by decide, by decide⟩
  have hne' : period_data.isEmpty = false := by
    cases period_data
    · exact absurd rfl hne
    · rfl
  unfold monthlyMaxRun at hk
  rw [hne', if_neg (by simp)] at hk
  set days := period_data.map Prod.fst with hdays
  set s := days.insertionSort (fun a b => a ≤ b) with hsort
  have hkeq : k = maxConsecutiveLoop s := (Option.some.inj hk).symm
  have hperm : s.Perm days := List.perm_insertionSort _ _
  have hsne : s ≠ [] := by
    intro hnil
    have hlen := hperm.length_eq
    rw [hnil] at hlen
    have : days = [] := List.eq_nil_of_length_eq_zero hlen.symm
    rw [hdays] at this
    exact hne (List.map_eq_nil_iff.1 this)
  have hsorted_le : List.Sorted (fun a b : Nat => a ≤ b) s :=
    List.sorted_insertionSort _ _
  have hsnd : s.Nodup := hperm.symm.nodup hnd
  have hsorted : List.Sorted (· < ·) s := sorted_lt_of_le_nodup s hsorted_le hsnd
  obtain ⟨x, xs, hxs⟩ := List.exists_cons_of_ne_nil hsne
  have hloop : maxConsecutiveLoop s = runsMax s := by
    rw [hxs]
    exact loop_eq_runsMax x xs
  constructor
  · obtain ⟨d, hd⟩ := runsMax_achieved s hsne
    refine ⟨d, fun i hi => ?_⟩
    have : d + i ∈ s := hd i (by rw [← hloop, ← hkeq]; exact hi)
    exact hperm.mem_iff.1 this
  · intro n d hrun
    have hn : n ≤ runsMax s := by
      refine runsMax_ub s hsorted d n (fun i hi => ?_)
      exact hperm.mem_iff.2 (hrun i hi)
    rw [hkeq, hloop]
    exact hn

/-- Witness for C5 at a concrete two-day mapping. -/
theorem c5_max_consecutive_run_witness :
    monthlyMaxRun [(1, 1), (2, 1)] = some 2 ∧ (2 : Nat) ≤ 2 :=
  ⟨by decide,
    (c5_max_consecutive_run.1 [(1, 1), (2, 1)] (by decide) (by decide) 2
      (by decide)).2 2 1 (by decide)⟩

/-- Claim C5 counterexample:  On the empty per-day mapping the analysis
report returns before computing any statistic: the run value produced is
`none`, not `0` (and the raw scan, were it reached, would return its
initial `1`). -/
theorem c5_empty_mapping_counterexample :
    monthlyMaxRun ([] : List (Nat × Nat)) ≠ some 0
    ∧ monthlyMaxRun ([] : List (Nat × Nat)) = none
    ∧ maxConsecutiveLoop [] = 1 :=
  ⟨by decide, rfl, rfl⟩

end DeerCheck
